import Mathlib

/-!
# Verification of the encrypted-secret-storage service

Shallow embedding of `src/core/encryption.py` from the repository
`Rashdi222/AI-Research-Assistant`: a lazily-initialized, module-cached
Fernet cipher wrapper exposing `encrypt`/`decrypt` over strings, reading
the master key from the `APP_MASTER_KEY` environment variable.

The wrapper logic (`_get_fernet`, `encrypt`, `decrypt`) is translated
directly from the source.  The `cryptography.fernet.Fernet` library and
Python's `str.encode`/`bytes.decode` are external dependencies not part
of the repository; they are modelled from the spec (an authenticated,
versioned, URL-safe textual token scheme with per-call randomness,
strict tamper detection, and a key that must be the URL-safe base64
encoding of 32 bytes).
-/

namespace EncSvc

/-! ## Byte-level primitives -/

/-- Base-256 digits of a natural number, least significant first, with a
fixed digit count (used for the 16-byte nonce). -/
def natDigits (n : Nat) : Nat → List Nat
  | 0 => []
  | k + 1 => n % 256 :: natDigits (n / 256) k

/-- Modelled from the spec: the fresh 16-byte nonce the authenticated
encryption scheme draws for each call ("fresh randomness per call"),
supplied by the process's randomness source. -/
def natToNonce (n : Nat) : List Nat := natDigits n 16

/-- Modelled from the spec: keystream of the symmetric cipher, a
key-and-nonce-determined byte sequence of the requested length. -/
def keystreamFrom (key nonce : List Nat) (i : Nat) : Nat → List Nat
  | 0 => []
  | k + 1 =>
      (key.getD (i % 32) 0 + nonce.getD (i % 16) 0 + i) % 256 ::
        keystreamFrom key nonce (i + 1) k

def keystream (key nonce : List Nat) (len : Nat) : List Nat :=
  keystreamFrom key nonce 0 len

/-- Byte-wise addition modulo 256 (encryption direction). -/
def addMod (xs ks : List Nat) : List Nat :=
  List.zipWith (fun a b => (a + b) % 256) xs ks

/-- Byte-wise subtraction modulo 256 (decryption direction). -/
def subMod (xs ks : List Nat) : List Nat :=
  List.zipWith (fun a b => (a + (256 - b % 256)) % 256) xs ks

/-- Modelled from the spec: the authentication tag of the scheme, a
position-dependent keyed transformation of the message bytes (the model
of the token's integrity tag; injective in the message for a fixed key,
which is what "authenticated tamper detection" requires). -/
def macFrom (key : List Nat) (i : Nat) : List Nat → List Nat
  | [] => []
  | b :: rest => (b + key.getD (i % 32) 0 + i) % 256 :: macFrom key (i + 1) rest

def macBytes (key msg : List Nat) : List Nat := macFrom key 0 msg

/-! ## Hexadecimal token text -/

/-- Hexadecimal alphabet of the modelled token encoding (URL-safe
text). -/
def hexDigitsList : List Char := "0123456789abcdef".data

/-- Hexadecimal digit character for a value below 16. -/
def hexChar (n : Nat) : Char := hexDigitsList.getD n '0'

/-- Strict inverse of `hexChar`: value of one hexadecimal digit, `none`
for any character outside the alphabet. -/
def hexVal? (c : Char) : Option Nat :=
  (List.range 16).find? (fun n => hexChar n == c)

/-- Bytes to hexadecimal text, two characters per byte. -/
def hexEncodeList : List Nat → List Char
  | [] => []
  | b :: rest => hexChar (b / 16) :: hexChar (b % 16) :: hexEncodeList rest

/-- Strict hexadecimal decoding; fails on odd length or any character
outside the alphabet. -/
def hexDecodeList : List Char → Option (List Nat)
  | [] => some []
  | [_] => none
  | c1 :: c2 :: rest =>
      match hexVal? c1, hexVal? c2, hexDecodeList rest with
      | some h, some l, some bs => some ((h * 16 + l) :: bs)
      | _, _, _ => none

/-! ## URL-safe base64 (master-key format) -/

/-- URL-safe base64 alphabet. -/
def b64Alphabet : List Char :=
  "ABCDEFGHIJKLMNOPQRSTUVWXYZabcdefghijklmnopqrstuvwxyz0123456789-_".data

/-- Value of one base64 character, `none` outside the alphabet. -/
def b64Val? (c : Char) : Option Nat :=
  let i := b64Alphabet.indexOf c
  if i < 64 then some i else none

/-- Modelled from the spec: strict URL-safe base64 decoding in groups of
four characters with `=` padding ("URL-safe base64 of 32 raw bytes" is
the required master-key format). -/
def b64DecodeGroups : List Char → Option (List Nat)
  | [] => some []
  | c1 :: c2 :: c3 :: c4 :: rest =>
      match b64Val? c1, b64Val? c2 with
      | some v1, some v2 =>
          if rest.isEmpty ∧ c3 = '=' ∧ c4 = '=' then
            if v2 % 16 = 0 then some [v1 * 4 + v2 / 16] else none
          else if rest.isEmpty ∧ c4 = '=' then
            match b64Val? c3 with
            | some v3 =>
                if v3 % 4 = 0 then
                  some [v1 * 4 + v2 / 16, v2 % 16 * 16 + v3 / 4]
                else none
            | none => none
          else
            match b64Val? c3, b64Val? c4, b64DecodeGroups rest with
            | some v3, some v4, some bs =>
                some ((v1 * 4 + v2 / 16) :: (v2 % 16 * 16 + v3 / 4) ::
                  (v3 % 4 * 64 + v4) :: bs)
            | _, _, _ => none
      | _, _ => none
  | _ => none

/-- URL-safe base64 decoding of a string. -/
def b64uDecode (s : String) : Option (List Nat) := b64DecodeGroups s.data

/-! ## The Fernet model -/

/-- Modelled from the spec: the cipher instance, bound to the 32 decoded
master-key bytes and holding no other state. -/
structure Fernet where
  key : List Nat
deriving DecidableEq, Repr

/-- Modelled from the spec: master-key validation — the key string must
be a URL-safe base64 encoding of exactly 32 bytes. -/
def fernetKeyBytes? (s : String) : Option (List Nat) :=
  match b64uDecode s with
  | some bs => if bs.length = 32 then some bs else none
  | none => none

/-- Decidable master-key validity. -/
def validFernetKey (s : String) : Bool := (fernetKeyBytes? s).isSome

/-- Body bytes of a token: the version byte, the nonce, and the
keystream-masked plaintext. -/
def tokenBody (f : Fernet) (nonce pt : List Nat) : List Nat :=
  128 :: (nonce ++ addMod pt (keystream f.key nonce pt.length))

/-- Modelled from the spec: authenticated encryption producing a
self-contained, versioned, tamper-evident textual token: a version byte,
the 16-byte nonce and the keystream-masked plaintext, followed by the
authentication tag over all of them, hex-encoded. -/
def fernetEncrypt (f : Fernet) (nonce pt : List Nat) : String :=
  String.mk (hexEncodeList (tokenBody f nonce pt ++
    macBytes f.key (tokenBody f nonce pt)))

/-- Modelled from the spec: authenticated decryption of the decoded
token bytes — split body from tag, recompute and compare the tag, check
the version byte, then unmask the ciphertext. -/
def fernetDecryptBytes (f : Fernet) (bs : List Nat) : Option (List Nat) :=
  if bs.length % 2 = 0 ∧ 34 ≤ bs.length then
    if bs.drop (bs.length / 2) = macBytes f.key (bs.take (bs.length / 2)) then
      match bs.take (bs.length / 2) with
      | 128 :: rest =>
          some (subMod (rest.drop 16)
            (keystream f.key (rest.take 16) (rest.drop 16).length))
      | _ => none
    else none
  else none

/-- Modelled from the spec: authenticated decryption — decode the hex
text, then check and unmask; any failure yields `none` (the library's
`InvalidToken`). -/
def fernetDecrypt (f : Fernet) (tok : String) : Option (List Nat) :=
  match hexDecodeList tok.data with
  | none => none
  | some bs => fernetDecryptBytes f bs

/-! ## Text-to-bytes encoding (`str.encode` / `bytes.decode`) -/

/-- Modelled from the spec: the injective text-to-bytes encoding used on
plaintexts (`str.encode`), one Unicode scalar value to three bytes. -/
def encodeChar (c : Char) : List Nat :=
  [c.toNat / 65536, c.toNat / 256 % 256, c.toNat % 256]

def charsToBytes : List Char → List Nat
  | [] => []
  | c :: rest => encodeChar c ++ charsToBytes rest

def strToBytes (s : String) : List Nat := charsToBytes s.data

/-- Modelled from the spec: the partial inverse decoding
(`bytes.decode`), failing on byte sequences that do not denote scalar
values. -/
def bytesToChars : List Nat → Option (List Char)
  | [] => some []
  | b2 :: b1 :: b0 :: rest =>
      let n := b2 * 65536 + b1 * 256 + b0
      if Nat.isValidChar n then
        (bytesToChars rest).map (fun cs => Char.ofNat n :: cs)
      else none
  | _ => none

def bytesToStr (bs : List Nat) : Option String :=
  (bytesToChars bs).map String.mk

/-! ## The Python layer: values, exceptions, module state -/

/-- Python values as they can reach `encrypt`/`decrypt`: a text string,
or one of the non-text kinds the spec and tests name (a number, raw
bytes, `None`). -/
inductive PyValue
  | str (s : String)
  | int (n : Int)
  | bytes (b : List Nat)
  | none
deriving DecidableEq, Repr

/-- Whether a value is a text string (`isinstance(x, str)`). -/
def PyValue.isStr : PyValue → Bool
  | .str _ => true
  | _ => false

/-- Python exceptions raised by the module: `ValueError` and `TypeError`
(and `UnicodeDecodeError` from `bytes.decode`, which the module does not
catch), each carrying its message. -/
inductive PyError
  | valueError (msg : String)
  | typeError (msg : String)
  | unicodeDecodeError (msg : String)
deriving DecidableEq, Repr

/-- The exception's kind (its Python class), as opposed to its message. -/
def PyError.kind : PyError → String
  | .valueError _ => "ValueError"
  | .typeError _ => "TypeError"
  | .unicodeDecodeError _ => "UnicodeDecodeError"

/-- Message of the `ValueError` raised when `APP_MASTER_KEY` is unset
(src/core/encryption.py line 19). -/
def missingKeyMsg : String :=
  "APP_MASTER_KEY environment variable not set. Cannot perform encryption/decryption."

/-- Message of the `ValueError` raised when `APP_MASTER_KEY` is malformed
(src/core/encryption.py line 25); the appended detail is the library's
own constant message and never contains the configured key value. -/
def invalidKeyMsg : String :=
  "Invalid APP_MASTER_KEY. It must be a 32-byte URL-safe base64-encoded key. Details: Fernet key must be 32 url-safe base64-encoded bytes."

/-- Message of the `ValueError` raised on authentication failure
(src/core/encryption.py line 49). -/
def tamperMsg : String :=
  "Cannot decrypt data: The token is invalid or has been tampered with."

/-- Message of the `TypeError` raised by `encrypt` on non-string input
(src/core/encryption.py line 32). -/
def encryptTypeMsg : String := "Data to encrypt must be a string."

/-- Message of the `TypeError` raised by `decrypt` on non-string input
(src/core/encryption.py line 40). -/
def decryptTypeMsg : String := "Data to decrypt must be a string."

/-- The process state the module touches: the `APP_MASTER_KEY`
environment variable, the module-level `_fernet_instance` cache, and the
randomness source consumed by the underlying scheme (modelled as a nonce
counter). -/
structure EncState where
  appMasterKey : Option String
  fernetInstance : Option Fernet
  nonceCounter : Nat
deriving DecidableEq, Repr

/-- Embedding of `_get_fernet` (src/core/encryption.py lines 8-27):
return the cached instance if present; otherwise read `APP_MASTER_KEY`
(Python's `if not master_key` treats the unset and the empty-string case
alike), validate it, and on success cache and return a fresh instance. -/
def get_fernet (st : EncState) : Except PyError Fernet × EncState :=
  match st.fernetInstance with
  | some f => (.ok f, st)
  | none =>
      match st.appMasterKey with
      | Option.none => (.error (.valueError missingKeyMsg), st)
      | some mk =>
          if mk = "" then (.error (.valueError missingKeyMsg), st)
          else
            match fernetKeyBytes? mk with
            | some bs =>
                (.ok ⟨bs⟩, { st with fernetInstance := some ⟨bs⟩ })
            | Option.none => (.error (.valueError invalidKeyMsg), st)

/-- Embedding of `encrypt` (src/core/encryption.py lines 29-35): type
guard, then `_get_fernet`, then `fernet.encrypt(data.encode()).decode()`
— the token is ASCII hex text, so its `bytes.decode` cannot fail and is
left implicit. -/
def encrypt (data : PyValue) (st : EncState) : Except PyError String × EncState :=
  match data with
  | .str s =>
      match get_fernet st with
      | (.error e, st') => (.error e, st')
      | (.ok f, st') =>
          (.ok (fernetEncrypt f (natToNonce st'.nonceCounter) (strToBytes s)),
           { st' with nonceCounter := st'.nonceCounter + 1 })
  | _ => (.error (.typeError encryptTypeMsg), st)

/-- Embedding of `decrypt` (src/core/encryption.py lines 37-49): type
guard, then `_get_fernet`, then authenticated decryption; the library's
`InvalidToken` is caught and re-raised as a `ValueError`, while a
failing `bytes.decode` of the recovered plaintext would propagate as
`UnicodeDecodeError`. -/
def decrypt (encrypted_data : PyValue) (st : EncState) :
    Except PyError String × EncState :=
  match encrypted_data with
  | .str tok =>
      match get_fernet st with
      | (.error e, st') => (.error e, st')
      | (.ok f, st') =>
          match fernetDecrypt f tok with
          | some pt =>
              match bytesToStr pt with
              | some s => (.ok s, st')
              | Option.none =>
                  (.error (.unicodeDecodeError "invalid plaintext bytes"), st')
          | Option.none => (.error (.valueError tamperMsg), st')
  | _ => (.error (.typeError decryptTypeMsg), st)

/-- Two strings that differ in exactly one character position: a common
prefix, one differing character, and a common suffix. -/
def OneCharDiff (t t' : String) : Prop :=
  ∃ pre c c' suf, t.data = pre ++ c :: suf ∧ t'.data = pre ++ c' :: suf ∧ c ≠ c'

/-! ## Basic length and bound lemmas -/

theorem natDigits_length (n k : Nat) : (natDigits n k).length = k := by
  induction k generalizing n with
  | zero => rfl
  | succ k ih => simp [natDigits, ih]

theorem natDigits_lt (n k : Nat) : ∀ b ∈ natDigits n k, b < 256 := by
  induction k generalizing n with
  | zero => simp [natDigits]
  | succ k ih =>
      intro b hb
      simp only [natDigits, List.mem_cons] at hb
      rcases hb with h | h
      · omega
      · exact ih _ b h

theorem natToNonce_length (n : Nat) : (natToNonce n).length = 16 :=
  natDigits_length n 16

theorem natToNonce_lt (n : Nat) : ∀ b ∈ natToNonce n, b < 256 :=
  natDigits_lt n 16

theorem keystreamFrom_length (key nonce : List Nat) (i k : Nat) :
    (keystreamFrom key nonce i k).length = k := by
  induction k generalizing i with
  | zero => rfl
  | succ k ih => simp [keystreamFrom, ih]

theorem keystream_length (key nonce : List Nat) (len : Nat) :
    (keystream key nonce len).length = len :=
  keystreamFrom_length key nonce 0 len

theorem macFrom_length (key : List Nat) (i : Nat) (m : List Nat) :
    (macFrom key i m).length = m.length := by
  induction m generalizing i with
  | nil => rfl
  | cons b rest ih => simp [macFrom, ih]

theorem macFrom_lt (key : List Nat) (i : Nat) (m : List Nat) :
    ∀ b ∈ macFrom key i m, b < 256 := by
  induction m generalizing i with
  | nil => simp [macFrom]
  | cons x rest ih =>
      intro b hb
      simp only [macFrom, List.mem_cons] at hb
      rcases hb with h | h
      · omega
      · exact ih _ b h

theorem addMod_length (xs ks : List Nat) :
    (addMod xs ks).length = min xs.length ks.length := by
  simp [addMod]

theorem addMod_lt (xs ks : List Nat) : ∀ b ∈ addMod xs ks, b < 256 := by
  intro b hb
  simp only [addMod, List.mem_iff_getElem, List.getElem_zipWith] at hb
  obtain ⟨i, hlt, hi⟩ := hb
  omega

theorem subMod_addMod (pt ks : List Nat) (hlen : pt.length = ks.length)
    (hpt : ∀ b ∈ pt, b < 256) : subMod (addMod pt ks) ks = pt := by
  induction pt generalizing ks with
  | nil => simp [addMod, subMod]
  | cons p rest ih =>
      cases ks with
      | nil => simp at hlen
      | cons k krest =>
          have hp : p < 256 := hpt p (by simp)
          simp only [addMod, subMod, List.zipWith_cons_cons, List.cons.injEq]
          constructor
          · omega
          · exact ih krest (by simpa using hlen) (fun b hb => hpt b (by simp [hb]))

/-! ## Hexadecimal encoding lemmas -/

theorem hexVal_hexChar : ∀ n, n < 16 → hexVal? (hexChar n) = some n := by decide

theorem hexVal_eq {c : Char} {v : Nat} (h : hexVal? c = some v) :
    v < 16 ∧ c = hexChar v := by
  have h1 := List.find?_some h
  have h2 := List.mem_of_find?_eq_some h
  simp only [List.mem_range] at h2
  exact ⟨h2, (beq_iff_eq.mp h1).symm⟩

theorem hexDecodeList_hexEncodeList (bs : List Nat) (h : ∀ b ∈ bs, b < 256) :
    hexDecodeList (hexEncodeList bs) = some bs := by
  induction bs with
  | nil => rfl
  | cons b rest ih =>
      have hb : b < 256 := h b (by simp)
      have h1 : hexVal? (hexChar (b / 16)) = some (b / 16) :=
        hexVal_hexChar _ (by omega)
      have h2 : hexVal? (hexChar (b % 16)) = some (b % 16) :=
        hexVal_hexChar _ (by omega)
      have h3 := ih (fun x hx => h x (by simp [hx]))
      simp only [hexEncodeList, hexDecodeList, h1, h2, h3]
      have : b / 16 * 16 + b % 16 = b := by omega
      simp [this]

theorem hexEncodeList_length (bs : List Nat) :
    (hexEncodeList bs).length = 2 * bs.length := by
  induction bs with
  | nil => rfl
  | cons b rest ih => simp [hexEncodeList, ih]; omega

/-! ## Text encoding lemmas -/

theorem encodeChar_lt (c : Char) : ∀ b ∈ encodeChar c, b < 256 := by
  have hv : Nat.isValidChar c.toNat := c.valid
  intro b hb
  simp only [encodeChar, List.mem_cons, List.not_mem_nil, or_false] at hb
  rcases hv with h | h <;> rcases hb with rfl | rfl | rfl <;> omega

theorem charsToBytes_lt (l : List Char) : ∀ b ∈ charsToBytes l, b < 256 := by
  induction l with
  | nil => simp [charsToBytes]
  | cons c rest ih =>
      intro b hb
      simp only [charsToBytes, List.mem_append] at hb
      rcases hb with h | h
      · exact encodeChar_lt c b h
      · exact ih b h

theorem strToBytes_lt (s : String) : ∀ b ∈ strToBytes s, b < 256 :=
  charsToBytes_lt s.data

theorem bytesToChars_charsToBytes (l : List Char) :
    bytesToChars (charsToBytes l) = some l := by
  induction l with
  | nil => rfl
  | cons c rest ih =>
      have hv : Nat.isValidChar c.toNat := c.valid
      show bytesToChars (encodeChar c ++ charsToBytes rest) = some (c :: rest)
      simp only [encodeChar, List.cons_append, List.nil_append, bytesToChars]
      have hn : c.toNat / 65536 * 65536 + c.toNat / 256 % 256 * 256 + c.toNat % 256
          = c.toNat := by omega
      rw [hn, if_pos hv]
      simp [ih, Char.ofNat_toNat]

theorem bytesToStr_strToBytes (s : String) : bytesToStr (strToBytes s) = some s := by
  unfold bytesToStr strToBytes
  rw [bytesToChars_charsToBytes]
  rfl

/-! ## Token structure lemmas -/

theorem tokenBody_length (f : Fernet) (nonce pt : List Nat)
    (hn : nonce.length = 16) : (tokenBody f nonce pt).length = 17 + pt.length := by
  simp [tokenBody, addMod_length, keystream_length, hn]
  omega

theorem tokenBody_lt (f : Fernet) (nonce pt : List Nat)
    (hnb : ∀ b ∈ nonce, b < 256) : ∀ b ∈ tokenBody f nonce pt, b < 256 := by
  intro b hb
  simp only [tokenBody, List.mem_cons, List.mem_append] at hb
  rcases hb with h | h | h
  · omega
  · exact hnb b h
  · exact addMod_lt _ _ b h

theorem tokenBytes_lt (f : Fernet) (nonce pt : List Nat)
    (hnb : ∀ b ∈ nonce, b < 256) :
    ∀ b ∈ tokenBody f nonce pt ++ macBytes f.key (tokenBody f nonce pt),
      b < 256 := by
  intro b hb
  rcases List.mem_append.mp hb with h | h
  · exact tokenBody_lt f nonce pt hnb b h
  · exact macFrom_lt _ _ _ b h

theorem fernetEncrypt_data (f : Fernet) (nonce pt : List Nat) :
    (fernetEncrypt f nonce pt).data =
      hexEncodeList (tokenBody f nonce pt ++
        macBytes f.key (tokenBody f nonce pt)) := rfl

/-- Round trip at the cipher level: decrypting an encryption recovers
the plaintext bytes exactly. -/
theorem fernetDecrypt_fernetEncrypt (f : Fernet) (nonce pt : List Nat)
    (hn : nonce.length = 16) (hnb : ∀ b ∈ nonce, b < 256)
    (hpt : ∀ b ∈ pt, b < 256) :
    fernetDecrypt f (fernetEncrypt f nonce pt) = some pt := by
  have hbl : (tokenBody f nonce pt).length = 17 + pt.length :=
    tokenBody_length f nonce pt hn
  have htl : (macBytes f.key (tokenBody f nonce pt)).length = 17 + pt.length := by
    rw [macBytes, macFrom_length, hbl]
  have hct_len : (addMod pt (keystream f.key nonce pt.length)).length = pt.length := by
    simp [addMod_length, keystream_length]
  unfold fernetDecrypt
  rw [fernetEncrypt_data,
    hexDecodeList_hexEncodeList _ (tokenBytes_lt f nonce pt hnb)]
  show fernetDecryptBytes f _ = some pt
  unfold fernetDecryptBytes
  rw [List.length_append, hbl, htl]
  rw [if_pos (by omega)]
  have hhalf : (17 + pt.length + (17 + pt.length)) / 2 = (tokenBody f nonce pt).length := by
    omega
  rw [hhalf, List.take_left, List.drop_left, if_pos rfl]
  show (match tokenBody f nonce pt with
      | 128 :: rest =>
          some (subMod (rest.drop 16)
            (keystream f.key (rest.take 16) (rest.drop 16).length))
      | _ => none) = some pt
  rw [tokenBody]
  show some (subMod ((nonce ++ addMod pt (keystream f.key nonce pt.length)).drop 16)
      (keystream f.key ((nonce ++ addMod pt (keystream f.key nonce pt.length)).take 16)
        ((nonce ++ addMod pt (keystream f.key nonce pt.length)).drop 16).length))
    = some pt
  rw [List.take_left' hn, List.drop_left' hn, hct_len]
  rw [subMod_addMod pt _ (by rw [keystream_length]) hpt]

/-- The authentication tag is injective in the message: messages that
differ at one byte position have different tags. -/
theorem macFrom_ne (key bp bsf : List Nat) (b b' i : Nat)
    (hb : b < 256) (hb' : b' < 256) (hne : b ≠ b') :
    macFrom key i (bp ++ b :: bsf) ≠ macFrom key i (bp ++ b' :: bsf) := by
  induction bp generalizing i with
  | nil =>
      simp only [List.nil_append, macFrom, ne_eq, List.cons.injEq, not_and]
      intro h
      exact absurd h (by omega)
  | cons x rest ih =>
      simp only [List.cons_append, macFrom, ne_eq, List.cons.injEq, not_and]
      intro _ h
      exact ih (i + 1) h

/-- Changing exactly one character of a hex text either breaks decoding
or changes exactly one byte of the decoded bytes (to a different value
below 256). -/
theorem hexDecode_onediff (pre suf : List Char) (c c' : Char) (bs : List Nat)
    (hdec : hexDecodeList (pre ++ c :: suf) = some bs) (hne : c ≠ c') :
    hexDecodeList (pre ++ c' :: suf) = none ∨
    ∃ bp b b' bsf, bs = bp ++ b :: bsf ∧
      hexDecodeList (pre ++ c' :: suf) = some (bp ++ b' :: bsf) ∧
      b ≠ b' ∧ b' < 256 := by
  match pre with
  | [] =>
      cases suf with
      | nil => simp [hexDecodeList] at hdec
      | cons c2 rest =>
          simp only [List.nil_append] at hdec ⊢
          cases hc : hexVal? c with
          | none => simp [hexDecodeList, hc] at hdec
          | some h =>
              cases hl : hexVal? c2 with
              | none => simp [hexDecodeList, hc, hl] at hdec
              | some l =>
                  cases hr : hexDecodeList rest with
                  | none => simp [hexDecodeList, hc, hl, hr] at hdec
                  | some bs0 =>
                      simp only [hexDecodeList, hc, hl, hr] at hdec
                      cases hc' : hexVal? c' with
                      | none => left; simp [hexDecodeList, hc']
                      | some h' =>
                          right
                          obtain ⟨hhlt, hce⟩ := hexVal_eq hc
                          obtain ⟨hh'lt, hce'⟩ := hexVal_eq hc'
                          obtain ⟨hllt, -⟩ := hexVal_eq hl
                          have hhne : h ≠ h' := by
                            intro heq; exact hne (by rw [hce, hce', heq])
                          refine ⟨[], h * 16 + l, h' * 16 + l, bs0, ?_, ?_, ?_, ?_⟩
                          · simpa using hdec.symm
                          · simp [hexDecodeList, hc', hl, hr]
                          · omega
                          · omega
  | [c1] =>
      simp only [List.cons_append, List.nil_append] at hdec ⊢
      cases hc1 : hexVal? c1 with
      | none => simp [hexDecodeList, hc1] at hdec
      | some v1 =>
          cases hc : hexVal? c with
          | none => simp [hexDecodeList, hc1, hc] at hdec
          | some l =>
              cases hr : hexDecodeList suf with
              | none => simp [hexDecodeList, hc1, hc, hr] at hdec
              | some bs0 =>
                  simp only [hexDecodeList, hc1, hc, hr] at hdec
                  cases hc' : hexVal? c' with
                  | none => left; simp [hexDecodeList, hc1, hc']
                  | some l' =>
                      right
                      obtain ⟨hllt, hce⟩ := hexVal_eq hc
                      obtain ⟨hl'lt, hce'⟩ := hexVal_eq hc'
                      obtain ⟨hv1lt, -⟩ := hexVal_eq hc1
                      have hlne : l ≠ l' := by
                        intro heq; exact hne (by rw [hce, hce', heq])
                      refine ⟨[], v1 * 16 + l, v1 * 16 + l', bs0, ?_, ?_, ?_, ?_⟩
                      · simpa using hdec.symm
                      · simp [hexDecodeList, hc1, hc', hr]
                      · omega
                      · omega
  | c1 :: c2 :: pre' =>
      simp only [List.cons_append] at hdec ⊢
      cases hc1 : hexVal? c1 with
      | none => simp [hexDecodeList, hc1] at hdec
      | some v1 =>
          cases hc2 : hexVal? c2 with
          | none => simp [hexDecodeList, hc1, hc2] at hdec
          | some v2 =>
              cases hr : hexDecodeList (pre' ++ c :: suf) with
              | none => simp [hexDecodeList, hc1, hc2, hr] at hdec
              | some bs0 =>
                  simp only [hexDecodeList, hc1, hc2, hr] at hdec
                  rcases hexDecode_onediff pre' suf c c' bs0 hr hne with
                    hnone | ⟨bp, b, b', bsf, hbs0, hdec', hbne, hblt⟩
                  · left; simp [hexDecodeList, hc1, hc2, hnone]
                  · right
                    refine ⟨(v1 * 16 + v2) :: bp, b, b', bsf, ?_, ?_, hbne, hblt⟩
                    · injection hdec with hdec
                      rw [← hdec, hbs0]
                      rfl
                    · simp [hexDecodeList, hc1, hc2, hdec']
termination_by pre.length

/-- Changing one byte of a valid token's byte sequence always makes
authenticated decryption fail: the change hits either the body (so the
recomputed tag no longer matches) or the tag itself. -/
theorem fernetDecryptBytes_onediff (f : Fernet) (nonce pt bp bsf : List Nat)
    (b b' : Nat) (hn : nonce.length = 16) (hnb : ∀ x ∈ nonce, x < 256)
    (hbs : tokenBody f nonce pt ++ macBytes f.key (tokenBody f nonce pt)
      = bp ++ b :: bsf)
    (hbne : b ≠ b') (hb'lt : b' < 256) :
    fernetDecryptBytes f (bp ++ b' :: bsf) = none := by
  have hbl : (tokenBody f nonce pt).length = 17 + pt.length :=
    tokenBody_length f nonce pt hn
  have htl : (macBytes f.key (tokenBody f nonce pt)).length = 17 + pt.length := by
    rw [macBytes, macFrom_length, hbl]
  have hlen : bp.length + (1 + bsf.length) = 17 + pt.length + (17 + pt.length) := by
    have h := congrArg List.length hbs
    simp only [List.length_append, List.length_cons, hbl, htl] at h
    omega
  have hlen' : (bp ++ b' :: bsf).length = 17 + pt.length + (17 + pt.length) := by
    simp only [List.length_append, List.length_cons]
    omega
  unfold fernetDecryptBytes
  rw [hlen', if_pos (by omega)]
  have hhalf : (17 + pt.length + (17 + pt.length)) / 2 = 17 + pt.length := by omega
  rw [hhalf]
  set n := 17 + pt.length with hndef
  have htake : (bp ++ b :: bsf).take n = tokenBody f nonce pt := by
    rw [← hbs, List.take_left' hbl]
  have hdrop : (bp ++ b :: bsf).drop n = macBytes f.key (tokenBody f nonce pt) := by
    rw [← hbs, List.drop_left' hbl]
  by_cases hp : bp.length < n
  · have hm : n - bp.length = n - bp.length - 1 + 1 := by omega
    set m := n - bp.length - 1
    have htake' : (bp ++ b' :: bsf).take n = bp ++ b' :: bsf.take m := by
      rw [List.take_append_eq_append_take, List.take_of_length_le (by omega), hm,
        List.take_succ_cons]
    have htakeb : (bp ++ b :: bsf).take n = bp ++ b :: bsf.take m := by
      rw [List.take_append_eq_append_take, List.take_of_length_le (by omega), hm,
        List.take_succ_cons]
    have hdrop' : (bp ++ b' :: bsf).drop n = bsf.drop m := by
      rw [List.drop_append_eq_append_drop, List.drop_eq_nil_of_le (by omega), hm,
        List.drop_succ_cons, List.nil_append]
    have hdropb : (bp ++ b :: bsf).drop n = bsf.drop m := by
      rw [List.drop_append_eq_append_drop, List.drop_eq_nil_of_le (by omega), hm,
        List.drop_succ_cons, List.nil_append]
    have hbody : tokenBody f nonce pt = bp ++ b :: bsf.take m := by
      rw [← htake, htakeb]
    have htag : macBytes f.key (tokenBody f nonce pt) = bsf.drop m := by
      rw [← hdrop, hdropb]
    have hblt : b < 256 := by
      refine tokenBody_lt f nonce pt hnb b ?_
      rw [hbody]
      simp
    rw [htake', hdrop', if_neg]
    intro hcontra
    have hcon2 : macBytes f.key (bp ++ b :: bsf.take m)
        = macBytes f.key (bp ++ b' :: bsf.take m) := by
      rw [← hbody, htag, hcontra]
    exact absurd hcon2
      (by simpa [macBytes] using macFrom_ne f.key bp (bsf.take m) b b' 0 hblt hb'lt hbne)
  · have hz : n - bp.length = 0 := by omega
    have htake' : (bp ++ b' :: bsf).take n = bp.take n := by
      rw [List.take_append_eq_append_take, hz, List.take_zero, List.append_nil]
    have htakeb : (bp ++ b :: bsf).take n = bp.take n := by
      rw [List.take_append_eq_append_take, hz, List.take_zero, List.append_nil]
    have hdrop' : (bp ++ b' :: bsf).drop n = bp.drop n ++ b' :: bsf := by
      rw [List.drop_append_eq_append_drop, hz, List.drop_zero]
    have hdropb : (bp ++ b :: bsf).drop n = bp.drop n ++ b :: bsf := by
      rw [List.drop_append_eq_append_drop, hz, List.drop_zero]
    have hbody : tokenBody f nonce pt = bp.take n := by
      rw [← htake, htakeb]
    have htag : macBytes f.key (tokenBody f nonce pt) = bp.drop n ++ b :: bsf := by
      rw [← hdrop, hdropb]
    rw [htake', hdrop', if_neg]
    intro hcontra
    rw [← hbody, htag] at hcontra
    injection List.append_cancel_left hcontra with h1 _
    exact hbne h1.symm

/-- Tamper detection at the cipher level: changing exactly one character
of an encrypted token makes decryption fail. -/
theorem fernetDecrypt_onediff (f : Fernet) (nonce pt : List Nat) (t' : String)
    (hn : nonce.length = 16) (hnb : ∀ x ∈ nonce, x < 256)
    (hdiff : OneCharDiff (fernetEncrypt f nonce pt) t') :
    fernetDecrypt f t' = none := by
  obtain ⟨pre, c, c', suf, hdata, hdata', hne⟩ := hdiff
  have hdec0 : hexDecodeList (pre ++ c :: suf) = some
      (tokenBody f nonce pt ++ macBytes f.key (tokenBody f nonce pt)) := by
    rw [← hdata, fernetEncrypt_data]
    exact hexDecodeList_hexEncodeList _ (tokenBytes_lt f nonce pt hnb)
  rcases hexDecode_onediff pre suf c c' _ hdec0 hne with
    hnone | ⟨bp, b, b', bsf, hbs, hdec', hbne, hb'lt⟩
  · unfold fernetDecrypt
    rw [hdata', hnone]
  · unfold fernetDecrypt
    rw [hdata', hdec']
    show fernetDecryptBytes f (bp ++ b' :: bsf) = none
    exact fernetDecryptBytes_onediff f nonce pt bp bsf b b' hn hnb hbs hbne hb'lt

/-- Encrypting the same plaintext under two different nonces yields two
different tokens. -/
theorem fernetEncrypt_nonce_ne (f : Fernet) (n1 n2 pt : List Nat)
    (h1 : n1.length = 16) (h2 : n2.length = 16)
    (hb1 : ∀ x ∈ n1, x < 256) (hb2 : ∀ x ∈ n2, x < 256)
    (hne : n1 ≠ n2) :
    fernetEncrypt f n1 pt ≠ fernetEncrypt f n2 pt := by
  intro h
  have hd : hexEncodeList (tokenBody f n1 pt ++ macBytes f.key (tokenBody f n1 pt))
      = hexEncodeList (tokenBody f n2 pt ++ macBytes f.key (tokenBody f n2 pt)) := by
    have h' := congrArg String.data h
    rwa [fernetEncrypt_data, fernetEncrypt_data] at h'
  have hsome : some (tokenBody f n1 pt ++ macBytes f.key (tokenBody f n1 pt))
      = some (tokenBody f n2 pt ++ macBytes f.key (tokenBody f n2 pt)) := by
    rw [← hexDecodeList_hexEncodeList _ (tokenBytes_lt f n1 pt hb1),
      ← hexDecodeList_hexEncodeList _ (tokenBytes_lt f n2 pt hb2), hd]
  injection hsome with hbs
  rw [tokenBody, tokenBody] at hbs
  simp only [List.cons_append, List.cons.injEq, List.append_assoc, true_and] at hbs
  exact hne (List.append_inj hbs (by rw [h1, h2])).1

/-- Successive nonces are always distinct (they differ in the lowest
byte). -/
theorem natToNonce_succ_ne (c : Nat) : natToNonce c ≠ natToNonce (c + 1) := by
  intro h
  have h0 : natToNonce c = c % 256 :: natDigits (c / 256) 15 := rfl
  have h1 : natToNonce (c + 1) = (c + 1) % 256 :: natDigits ((c + 1) / 256) 15 := rfl
  rw [h0, h1] at h
  injection h with hh _
  omega

/-! ## Characterizations of `_get_fernet` -/

/-- A cached instance is returned as-is and nothing else is touched
(the environment is not even read). -/
theorem get_fernet_cached (st : EncState) (f : Fernet)
    (h : st.fernetInstance = some f) : get_fernet st = (.ok f, st) := by
  simp [get_fernet, h]

/-- First successful initialization: a present, nonempty, valid key is
decoded; the fresh instance is cached. -/
theorem get_fernet_fresh (st : EncState) (k : String) (bs : List Nat)
    (h1 : st.fernetInstance = none) (h2 : st.appMasterKey = some k)
    (h3 : k ≠ "") (h4 : fernetKeyBytes? k = some bs) :
    get_fernet st = (.ok ⟨bs⟩, { st with fernetInstance := some ⟨bs⟩ }) := by
  simp [get_fernet, h1, h2, h3, h4]

/-- Missing (or empty, which Python's falsiness check treats alike)
master key: `ValueError` with the missing-key message, state untouched. -/
theorem get_fernet_missing (st : EncState)
    (h1 : st.fernetInstance = none)
    (h2 : st.appMasterKey = none ∨ st.appMasterKey = some "") :
    get_fernet st = (.error (.valueError missingKeyMsg), st) := by
  rcases h2 with h2 | h2 <;> simp [get_fernet, h1, h2]

/-- Present but malformed master key: `ValueError` with the invalid-key
message, state untouched. -/
theorem get_fernet_invalid (st : EncState) (k : String)
    (h1 : st.fernetInstance = none) (h2 : st.appMasterKey = some k)
    (h3 : k ≠ "") (h4 : fernetKeyBytes? k = none) :
    get_fernet st = (.error (.valueError invalidKeyMsg), st) := by
  simp [get_fernet, h1, h2, h3, h4]

/-- Inversion: when `_get_fernet` succeeds, the returned instance is the
cached one of the result state, and only the cache may have changed. -/
theorem get_fernet_ok_inst (st st' : EncState) (f : Fernet)
    (h : get_fernet st = (.ok f, st')) :
    st'.fernetInstance = some f ∧ st'.nonceCounter = st.nonceCounter ∧
      st'.appMasterKey = st.appMasterKey := by
  cases hc : st.fernetInstance with
  | some g =>
      rw [get_fernet_cached st g hc, Prod.mk.injEq] at h
      obtain ⟨he, hst⟩ := h
      injection he with he
      subst hst
      exact ⟨by rw [hc, he], rfl, rfl⟩
  | none =>
      cases ha : st.appMasterKey with
      | none => rw [get_fernet_missing st hc (Or.inl ha)] at h; simp at h
      | some k =>
          by_cases hk : k = ""
          · subst hk
            rw [get_fernet_missing st hc (Or.inr ha)] at h
            simp at h
          · cases hb : fernetKeyBytes? k with
            | none =>
                rw [get_fernet_invalid st k hc ha hk hb] at h
                simp at h
            | some bs =>
                rw [get_fernet_fresh st k bs hc ha hk hb, Prod.mk.injEq] at h
                obtain ⟨he, hst⟩ := h
                injection he with he
                subst hst
                exact ⟨by rw [← he], rfl, ha⟩

/-- Inversion of a successful `encrypt` call: the token is the cipher's
output on the current nonce, the instance ends up cached, and the nonce
counter advances by one. -/
theorem encrypt_ok_inv (s : String) (st st1 : EncState) (t : String)
    (h : encrypt (.str s) st = (.ok t, st1)) :
    ∃ f, st1.fernetInstance = some f ∧
      t = fernetEncrypt f (natToNonce st.nonceCounter) (strToBytes s) ∧
      st1.nonceCounter = st.nonceCounter + 1 ∧
      st1.appMasterKey = st.appMasterKey := by
  unfold encrypt at h
  cases hg : get_fernet st with
  | mk r st' =>
      rw [hg] at h
      cases r with
      | error e => simp at h
      | ok f =>
          simp only [Prod.mk.injEq] at h
          obtain ⟨ht, hst⟩ := h
          injection ht with ht
          obtain ⟨hinst, hcnt, hkey⟩ := get_fernet_ok_inst st st' f hg
          refine ⟨f, ?_, ?_, ?_, ?_⟩
          · rw [← hst]; exact hinst
          · rw [← ht, hcnt]
          · rw [← hst]; simpa using hcnt
          · rw [← hst]; exact hkey

/-- A valid master key is in particular nonempty, so Python's falsiness
check does not divert it to the missing-key branch. -/
theorem validFernetKey_ne_empty (k : String) (h : validFernetKey k = true) :
    k ≠ "" := by
  intro hk
  subst hk
  exact absurd h (by decide)

/-- With a valid configured key, `_get_fernet` succeeds from any cache
state. -/
theorem get_fernet_ok_of_valid (st : EncState) (k : String)
    (h1 : st.appMasterKey = some k) (h2 : validFernetKey k = true) :
    ∃ f st', get_fernet st = (.ok f, st') := by
  cases hc : st.fernetInstance with
  | some g => exact ⟨g, st, get_fernet_cached st g hc⟩
  | none =>
      have hk : k ≠ "" := validFernetKey_ne_empty k h2
      have h2' : (fernetKeyBytes? k).isSome = true := h2
      obtain ⟨bs, hbs⟩ := Option.isSome_iff_exists.mp h2'
      exact ⟨⟨bs⟩, _, get_fernet_fresh st k bs hc h1 hk hbs⟩

/-- With a valid configured key, `encrypt` of a string succeeds. -/
theorem encrypt_ok_exists (st : EncState) (s k : String)
    (h1 : st.appMasterKey = some k) (h2 : validFernetKey k = true) :
    ∃ t st1, encrypt (.str s) st = (.ok t, st1) := by
  obtain ⟨f, st', hg⟩ := get_fernet_ok_of_valid st k h1 h2
  exact ⟨fernetEncrypt f (natToNonce st'.nonceCounter) (strToBytes s),
    { st' with nonceCounter := st'.nonceCounter + 1 }, by simp only [encrypt, hg]⟩

/-- Decryption never changes the state when the instance is cached. -/
theorem decrypt_cached_state (st : EncState) (f : Fernet) (t : String)
    (h : st.fernetInstance = some f) : (decrypt (.str t) st).2 = st := by
  simp only [decrypt, get_fernet_cached st f h]
  split
  · split
    · rfl
    · rfl
  · rfl

/-! ## Concrete values for witnesses -/

instance (α β : Type) [DecidableEq α] [DecidableEq β] :
    DecidableEq (Except α β) := fun a b =>
  match a, b with
  | .ok x, .ok y =>
      match decEq x y with
      | isTrue h => isTrue (by rw [h])
      | isFalse h => isFalse (fun hc => h (by injection hc))
  | .error x, .error y =>
      match decEq x y with
      | isTrue h => isTrue (by rw [h])
      | isFalse h => isFalse (fun hc => h (by injection hc))
  | .ok _, .error _ => isFalse (fun hc => Except.noConfusion hc)
  | .error _, .ok _ => isFalse (fun hc => Except.noConfusion hc)

/-- Concrete valid master key: the URL-safe base64 encoding of 32 zero
bytes. -/
def key0 : String := "AAAAAAAAAAAAAAAAAAAAAAAAAAAAAAAAAAAAAAAAAAA="

/-- The cipher instance constructed from `key0`. -/
def fern0 : Fernet := ⟨List.replicate 32 0⟩

/-- Token produced by the first `encrypt("ab")` call under `key0`. -/
def tok_ab : String :=
  "8000000000000000000000000000000000000163030467800102030405060708090a0b0c0d0e0f1011137617197d"

/-- The token `tok_ab` with its last character changed. -/
def tok_ab_mut : String :=
  "8000000000000000000000000000000000000163030467800102030405060708090a0b0c0d0e0f1011137617197e"

/-- Token produced by the second `encrypt("ab")` call under `key0`. -/
def tok_ab2 : String :=
  "8001000000000000000000000000000000010163030467800202030405060708090a0b0c0d0e0f1012137617197d"

/-- Module state after one successful call under `key0`. -/
def st_ab : EncState := ⟨some key0, some fern0, 1⟩

/-! ## The claims -/

/-- C1: for every text string `s`, if the master key is configured as a
valid URL-safe base64 encoding of 32 bytes, then `decrypt(encrypt(s))`
returns exactly `s` (round-trip law). -/
theorem C1_roundtrip (st : EncState) (s k : String)
    (h1 : st.appMasterKey = some k) (h2 : validFernetKey k = true) :
    ∃ t st1, encrypt (.str s) st = (.ok t, st1) ∧
      (decrypt (.str t) st1).1 = .ok s := by
  obtain ⟨f, st', hg⟩ := get_fernet_ok_of_valid st k h1 h2
  refine ⟨fernetEncrypt f (natToNonce st'.nonceCounter) (strToBytes s),
    { st' with nonceCounter := st'.nonceCounter + 1 }, by simp only [encrypt, hg], ?_⟩
  obtain ⟨hinst, -, -⟩ := get_fernet_ok_inst st st' f hg
  have hg1 : get_fernet { st' with nonceCounter := st'.nonceCounter + 1 }
      = (.ok f, { st' with nonceCounter := st'.nonceCounter + 1 }) :=
    get_fernet_cached _ f hinst
  have hdec : fernetDecrypt f
      (fernetEncrypt f (natToNonce st'.nonceCounter) (strToBytes s))
      = some (strToBytes s) :=
    fernetDecrypt_fernetEncrypt f _ _ (natToNonce_length _) (natToNonce_lt _)
      (strToBytes_lt s)
  simp only [decrypt, hg1, hdec, bytesToStr_strToBytes]

/-- Witness for C1 at a concrete key and plaintext. -/
theorem C1_roundtrip_witness :
    (⟨some key0, none, 0⟩ : EncState).appMasterKey = some key0 ∧
    validFernetKey key0 = true ∧
    ∃ t st1,
      encrypt (.str "my-secret-api-key-12345") ⟨some key0, none, 0⟩ = (.ok t, st1) ∧
      (decrypt (.str t) st1).1 = .ok "my-secret-api-key-12345" :=
  ⟨rfl, by decide,
    C1_roundtrip ⟨some key0, none, 0⟩ "my-secret-api-key-12345" key0 rfl (by decide)⟩

/-- C2: every single-character modification of a token produced by
`encrypt` makes `decrypt` fail with the tampered-token `ValueError`; in
particular no wrong plaintext is ever returned. -/
theorem C2_tamper (st st1 : EncState) (s t t' : String)
    (h1 : encrypt (.str s) st = (.ok t, st1))
    (h2 : OneCharDiff t t') :
    (decrypt (.str t') st1).1 = .error (.valueError tamperMsg) := by
  obtain ⟨f, hinst, ht, -, -⟩ := encrypt_ok_inv s st st1 t h1
  have hg1 : get_fernet st1 = (.ok f, st1) := get_fernet_cached st1 f hinst
  have hdec : fernetDecrypt f t' = none := by
    refine fernetDecrypt_onediff f (natToNonce st.nonceCounter) (strToBytes s) t'
      (natToNonce_length _) (natToNonce_lt _) ?_
    rwa [← ht]
  simp only [decrypt, hg1, hdec]

/-- Witness for C2: mutate the last character of a concrete token. -/
theorem C2_tamper_witness :
    encrypt (.str "ab") ⟨some key0, none, 0⟩ = (.ok tok_ab, st_ab) ∧
    OneCharDiff tok_ab tok_ab_mut ∧
    (decrypt (.str tok_ab_mut) st_ab).1 = .error (.valueError tamperMsg) :=
  ⟨by decide,
   ⟨tok_ab.data.dropLast, 'd', 'e', [], by decide, by decide, by decide⟩,
   C2_tamper ⟨some key0, none, 0⟩ st_ab "ab" tok_ab tok_ab_mut (by decide)
     ⟨tok_ab.data.dropLast, 'd', 'e', [], by decide, by decide, by decide⟩⟩

/-- C3: with no master key in the environment (and the cipher not yet
initialized), both operations fail with the missing-key `ValueError`
and leave the state untouched — no cryptographic work happens. -/
theorem C3_missing_key (st : EncState) (s t : String)
    (h1 : st.appMasterKey = none) (h2 : st.fernetInstance = none) :
    encrypt (.str s) st = (.error (.valueError missingKeyMsg), st) ∧
    decrypt (.str t) st = (.error (.valueError missingKeyMsg), st) := by
  have hg := get_fernet_missing st h2 (Or.inl h1)
  exact ⟨by simp only [encrypt, hg], by simp only [decrypt, hg]⟩

/-- Witness for C3 at the empty environment. -/
theorem C3_missing_key_witness :
    (⟨none, none, 0⟩ : EncState).appMasterKey = none ∧
    (⟨none, none, 0⟩ : EncState).fernetInstance = none ∧
    (encrypt (.str "this will fail") ⟨none, none, 0⟩
        = (.error (.valueError missingKeyMsg), ⟨none, none, 0⟩) ∧
      decrypt (.str "gAAAAABm") ⟨none, none, 0⟩
        = (.error (.valueError missingKeyMsg), ⟨none, none, 0⟩)) :=
  ⟨rfl, rfl, C3_missing_key ⟨none, none, 0⟩ "this will fail" "gAAAAABm" rfl rfl⟩

/-- C4 counterexample: the error actually raised for a tampered token
and the error raised for a missing key have the SAME kind
(`ValueError`), so the tampered-token failure is not a distinct error
kind as the claim states. -/
theorem C4_counterexample :
    (decrypt (.str "zz") ⟨some key0, some fern0, 5⟩).1
        = .error (.valueError tamperMsg) ∧
    (encrypt (.str "x") ⟨none, none, 0⟩).1 = .error (.valueError missingKeyMsg) ∧
    PyError.kind (.valueError tamperMsg) = PyError.kind (.valueError missingKeyMsg) :=
  ⟨by decide, by decide, rfl⟩

/-- C4 amended: the tampered-token error, the missing-key error and the
invalid-key error are all raised with the same kind (`ValueError`) and
are distinguishable only by their (pairwise distinct) messages; only the
non-string-input error (`TypeError`) has a distinct kind. -/
theorem C4_error_taxonomy (st1 st2 : EncState) (f : Fernet) (tok s : String)
    (hc : st1.fernetInstance = some f) (htok : fernetDecrypt f tok = none)
    (h2i : st2.fernetInstance = none) (h2k : st2.appMasterKey = none) :
    (decrypt (.str tok) st1).1 = .error (.valueError tamperMsg) ∧
    (encrypt (.str s) st2).1 = .error (.valueError missingKeyMsg) ∧
    PyError.kind (.valueError tamperMsg) = PyError.kind (.valueError missingKeyMsg) ∧
    PyError.kind (.valueError tamperMsg) = PyError.kind (.valueError invalidKeyMsg) ∧
    tamperMsg ≠ missingKeyMsg ∧ tamperMsg ≠ invalidKeyMsg ∧
    missingKeyMsg ≠ invalidKeyMsg ∧
    PyError.kind (.typeError encryptTypeMsg) ≠ PyError.kind (.valueError tamperMsg) := by
  refine ⟨?_, ?_, rfl, rfl, by decide, by decide, by decide, by decide⟩
  · simp only [decrypt, get_fernet_cached st1 f hc, htok]
  · simp only [encrypt, get_fernet_missing st2 h2i (Or.inl h2k)]

/-- Witness for the amended C4 at concrete states. -/
theorem C4_error_taxonomy_witness :
    (⟨some key0, some fern0, 5⟩ : EncState).fernetInstance = some fern0 ∧
    fernetDecrypt fern0 "zz" = none ∧
    (⟨none, none, 0⟩ : EncState).fernetInstance = none ∧
    (⟨none, none, 0⟩ : EncState).appMasterKey = none ∧
    ((decrypt (.str "zz") ⟨some key0, some fern0, 5⟩).1
        = .error (.valueError tamperMsg) ∧
      (encrypt (.str "x") ⟨none, none, 0⟩).1 = .error (.valueError missingKeyMsg) ∧
      PyError.kind (.valueError tamperMsg) = PyError.kind (.valueError missingKeyMsg) ∧
      PyError.kind (.valueError tamperMsg) = PyError.kind (.valueError invalidKeyMsg) ∧
      tamperMsg ≠ missingKeyMsg ∧ tamperMsg ≠ invalidKeyMsg ∧
      missingKeyMsg ≠ invalidKeyMsg ∧
      PyError.kind (.typeError encryptTypeMsg) ≠ PyError.kind (.valueError tamperMsg)) :=
  ⟨rfl, by decide, rfl, rfl,
    C4_error_taxonomy ⟨some key0, some fern0, 5⟩ ⟨none, none, 0⟩ fern0 "zz" "x"
      rfl (by decide) rfl rfl⟩

/-- C5: two successive `encrypt` calls on the same plaintext produce
different tokens (per-call randomness). -/
theorem C5_nondeterminism (st st1 st2 : EncState) (s t1 t2 : String)
    (h1 : encrypt (.str s) st = (.ok t1, st1))
    (h2 : encrypt (.str s) st1 = (.ok t2, st2)) :
    t1 ≠ t2 := by
  obtain ⟨f1, hi1, ht1, hc1, -⟩ := encrypt_ok_inv s st st1 t1 h1
  have hg2 : get_fernet st1 = (.ok f1, st1) := get_fernet_cached st1 f1 hi1
  have ht2 : t2 = fernetEncrypt f1 (natToNonce st1.nonceCounter) (strToBytes s) := by
    simp only [encrypt, hg2, Prod.mk.injEq] at h2
    obtain ⟨he, -⟩ := h2
    injection he with he
    exact he.symm
  rw [ht1, ht2, hc1]
  exact fernetEncrypt_nonce_ne f1 (natToNonce st.nonceCounter)
    (natToNonce (st.nonceCounter + 1)) (strToBytes s)
    (natToNonce_length _) (natToNonce_length _)
    (natToNonce_lt _) (natToNonce_lt _) (natToNonce_succ_ne st.nonceCounter)

/-- Witness for C5: the two concrete successive tokens differ. -/
theorem C5_nondeterminism_witness :
    encrypt (.str "ab") ⟨some key0, none, 0⟩ = (.ok tok_ab, st_ab) ∧
    encrypt (.str "ab") st_ab = (.ok tok_ab2, ⟨some key0, some fern0, 2⟩) ∧
    tok_ab ≠ tok_ab2 :=
  ⟨by decide, by decide,
    C5_nondeterminism ⟨some key0, none, 0⟩ st_ab ⟨some key0, some fern0, 2⟩
      "ab" tok_ab tok_ab2 (by decide) (by decide)⟩

/-- C6 counterexample: an empty-string master key is present in the
environment and is not a valid URL-safe base64 encoding of 32 bytes,
yet the first call fails with the missing-key message, not the
invalid-key one (Python's `if not master_key` treats "" as absent). -/
theorem C6_counterexample :
    validFernetKey "" = false ∧
    (encrypt (.str "x") ⟨some "", none, 0⟩).1 = .error (.valueError missingKeyMsg) ∧
    missingKeyMsg ≠ invalidKeyMsg :=
  ⟨by decide, by decide, by decide⟩

/-- C6 amended: a present, NONEMPTY master key that is not a valid
URL-safe base64 encoding of 32 bytes makes the first `encrypt` or
`decrypt` fail with the invalid-key `ValueError`, whose message is one
fixed constant naming the expected format (32-byte URL-safe base64) and
therefore never echoes the configured key value; an empty-string key is
instead classified as missing. -/
theorem C6_invalid_key (st : EncState) (k s t : String)
    (h1 : st.fernetInstance = none) (h2 : st.appMasterKey = some k)
    (h3 : k ≠ "") (h4 : validFernetKey k = false) :
    encrypt (.str s) st = (.error (.valueError invalidKeyMsg), st) ∧
    decrypt (.str t) st = (.error (.valueError invalidKeyMsg), st) := by
  have h4' : fernetKeyBytes? k = none := by
    cases hb : fernetKeyBytes? k with
    | none => rfl
    | some bs =>
        have : validFernetKey k = true := by
          show (fernetKeyBytes? k).isSome = true
          rw [hb]
          rfl
        rw [this] at h4
        exact absurd h4 (by decide)
  have hg := get_fernet_invalid st k h1 h2 h3 h4'
  exact ⟨by simp only [encrypt, hg], by simp only [decrypt, hg]⟩

/-- Witness for the amended C6 at a concrete malformed key. -/
theorem C6_invalid_key_witness :
    (⟨some "this-is-not-a-base64-key", none, 0⟩ : EncState).fernetInstance = none ∧
    (⟨some "this-is-not-a-base64-key", none, 0⟩ : EncState).appMasterKey
      = some "this-is-not-a-base64-key" ∧
    "this-is-not-a-base64-key" ≠ "" ∧
    validFernetKey "this-is-not-a-base64-key" = false ∧
    (encrypt (.str "a") ⟨some "this-is-not-a-base64-key", none, 0⟩
        = (.error (.valueError invalidKeyMsg),
           ⟨some "this-is-not-a-base64-key", none, 0⟩) ∧
      decrypt (.str "b") ⟨some "this-is-not-a-base64-key", none, 0⟩
        = (.error (.valueError invalidKeyMsg),
           ⟨some "this-is-not-a-base64-key", none, 0⟩)) :=
  ⟨rfl, rfl, by decide, by decide,
    C6_invalid_key ⟨some "this-is-not-a-base64-key", none, 0⟩
      "this-is-not-a-base64-key" "a" "b" rfl rfl (by decide) (by decide)⟩

/-- C7 counterexample: the empty string is accepted by `encrypt` (it is
a text string), not rejected with the input-kind error as the claim's
"empty value" case asserts. -/
theorem C7_counterexample :
    (encrypt (.str "") ⟨some key0, none, 0⟩).1
      = .ok "8000000000000000000000000000000000800102030405060708090a0b0c0d0e0f10" := by
  decide

/-- C7 amended: every input that is not a text string — a number, raw
bytes, or null/absent — makes both operations fail with the input-kind
`TypeError` before any cryptographic work (state untouched); the empty
string, being a text string, is accepted. -/
theorem C7_input_kind (st : EncState) (n : Int) (bs : List Nat) (v : PyValue)
    (hv : v = .int n ∨ v = .bytes bs ∨ v = PyValue.none) :
    encrypt v st = (.error (.typeError encryptTypeMsg), st) ∧
    decrypt v st = (.error (.typeError decryptTypeMsg), st) := by
  rcases hv with rfl | rfl | rfl <;> exact ⟨rfl, rfl⟩

/-- Witness for the amended C7 at the test suite's inputs. -/
theorem C7_input_kind_witness :
    ((PyValue.int 12345 = PyValue.int 12345 ∨
        PyValue.int 12345 = PyValue.bytes [1] ∨
        PyValue.int 12345 = PyValue.none) ∧
      encrypt (.int 12345) ⟨some key0, none, 0⟩
        = (.error (.typeError encryptTypeMsg), ⟨some key0, none, 0⟩) ∧
      decrypt (.int 12345) ⟨some key0, none, 0⟩
        = (.error (.typeError decryptTypeMsg), ⟨some key0, none, 0⟩)) :=
  ⟨Or.inl rfl,
    (C7_input_kind ⟨some key0, none, 0⟩ 12345 [1] (.int 12345) (Or.inl rfl)).1,
    (C7_input_kind ⟨some key0, none, 0⟩ 12345 [1] (.int 12345) (Or.inl rfl)).2⟩

/-- C8: once an instance is cached, `_get_fernet` returns exactly that
instance without touching the state (whatever the environment now
holds), `encrypt` uses it and leaves it cached, and `decrypt` leaves the
state unchanged. -/
theorem C8_singleton_reuse (st : EncState) (f : Fernet) (s t : String)
    (h : st.fernetInstance = some f) :
    get_fernet st = (.ok f, st) ∧
    encrypt (.str s) st =
      (.ok (fernetEncrypt f (natToNonce st.nonceCounter) (strToBytes s)),
       { st with nonceCounter := st.nonceCounter + 1 }) ∧
    (encrypt (.str s) st).2.fernetInstance = some f ∧
    (decrypt (.str t) st).2 = st := by
  have hg := get_fernet_cached st f h
  refine ⟨hg, by simp only [encrypt, hg], ?_, decrypt_cached_state st f t h⟩
  simp only [encrypt, hg]
  exact h

/-- Witness for C8: the cached instance is reused even though the
environment no longer holds any key. -/
theorem C8_singleton_reuse_witness :
    (⟨none, some fern0, 7⟩ : EncState).fernetInstance = some fern0 ∧
    (get_fernet ⟨none, some fern0, 7⟩ = (.ok fern0, ⟨none, some fern0, 7⟩) ∧
      encrypt (.str "s") ⟨none, some fern0, 7⟩ =
        (.ok (fernetEncrypt fern0 (natToNonce 7) (strToBytes "s")),
         ⟨none, some fern0, 8⟩) ∧
      (encrypt (.str "s") ⟨none, some fern0, 7⟩).2.fernetInstance = some fern0 ∧
      (decrypt (.str "zz") ⟨none, some fern0, 7⟩).2 = ⟨none, some fern0, 7⟩) :=
  ⟨rfl, C8_singleton_reuse ⟨none, some fern0, 7⟩ fern0 "s" "zz" rfl⟩

/-- C9: the type guard precedes key initialization — a non-string input
raises the input-kind `TypeError` and leaves the state untouched for
EVERY state, in particular when the key is absent or malformed, so
`TypeError` takes precedence over the configuration errors. -/
theorem C9_type_check_precedence (st : EncState) (v : PyValue)
    (hv : v.isStr = false) :
    encrypt v st = (.error (.typeError encryptTypeMsg), st) ∧
    decrypt v st = (.error (.typeError decryptTypeMsg), st) := by
  cases v with
  | str s => simp [PyValue.isStr] at hv
  | int n => exact ⟨rfl, rfl⟩
  | bytes b => exact ⟨rfl, rfl⟩
  | none => exact ⟨rfl, rfl⟩

/-- Witness for C9: bytes input in a state with no key at all still
gives the `TypeError`, not the missing-key error. -/
theorem C9_type_check_precedence_witness :
    (PyValue.bytes [115, 111]).isStr = false ∧
    (encrypt (.bytes [115, 111]) ⟨none, none, 0⟩
        = (.error (.typeError encryptTypeMsg), ⟨none, none, 0⟩) ∧
      decrypt (.bytes [115, 111]) ⟨none, none, 0⟩
        = (.error (.typeError decryptTypeMsg), ⟨none, none, 0⟩)) :=
  ⟨rfl, C9_type_check_precedence ⟨none, none, 0⟩ (.bytes [115, 111]) rfl⟩

/-- C10: a failed initialization (missing or invalid key) leaves the
cache unset and the state unchanged, and once the environment is fixed
with any valid key the next `encrypt` succeeds — no restart needed. -/
theorem C10_failed_init_recoverable (st : EncState) (s s' : String)
    (h1 : st.fernetInstance = none)
    (h2 : st.appMasterKey = none ∨
      ∃ k, st.appMasterKey = some k ∧ validFernetKey k = false) :
    (∃ e, encrypt (.str s) st = (.error e, st)) ∧
    (∀ k', validFernetKey k' = true →
      ∃ t st1, encrypt (.str s') { st with appMasterKey := some k' } = (.ok t, st1)) := by
  constructor
  · rcases h2 with h2 | ⟨k, hk, hinv⟩
    · exact ⟨.valueError missingKeyMsg,
        by simp only [encrypt, get_fernet_missing st h1 (Or.inl h2)]⟩
    · by_cases hke : k = ""
      · subst hke
        exact ⟨.valueError missingKeyMsg,
          by simp only [encrypt, get_fernet_missing st h1 (Or.inr hk)]⟩
      · have h4' : fernetKeyBytes? k = none := by
          cases hb : fernetKeyBytes? k with
          | none => rfl
          | some bs =>
              have : validFernetKey k = true := by
                show (fernetKeyBytes? k).isSome = true
                rw [hb]
                rfl
              rw [this] at hinv
              exact absurd hinv (by decide)
        exact ⟨.valueError invalidKeyMsg,
          by simp only [encrypt, get_fernet_invalid st k h1 hk hke h4']⟩
  · intro k' hk'
    exact encrypt_ok_exists { st with appMasterKey := some k' } s' k' rfl hk'

/-- Witness for C10: fail with a malformed key, then succeed after the
key is fixed. -/
theorem C10_failed_init_recoverable_witness :
    (⟨some "bad", none, 0⟩ : EncState).fernetInstance = none ∧
    ((⟨some "bad", none, 0⟩ : EncState).appMasterKey = none ∨
      ∃ k, (⟨some "bad", none, 0⟩ : EncState).appMasterKey = some k ∧
        validFernetKey k = false) ∧
    ((∃ e, encrypt (.str "x") ⟨some "bad", none, 0⟩
        = (.error e, ⟨some "bad", none, 0⟩)) ∧
      (∀ k', validFernetKey k' = true →
        ∃ t st1, encrypt (.str "y")
          { (⟨some "bad", none, 0⟩ : EncState) with appMasterKey := some k' }
          = (.ok t, st1))) :=
  ⟨rfl, Or.inr ⟨"bad", rfl, by decide⟩,
    C10_failed_init_recoverable ⟨some "bad", none, 0⟩ "x" "y" rfl
      (Or.inr ⟨"bad", rfl, by decide⟩)⟩

end EncSvc
